import Mathlib

/-!
Verification of the Beaver-triple secure-multiplication repository
(`src/coordinator.py`, `src/party.py`) against its specification.

The Python code is shallowly embedded: the pseudo-random draws that
`random.randint` produces are passed as explicit arguments, machine
integers become `Nat`/`Int` with explicit `%`, and the one failure
path (the `assert` in XOR sharing) becomes `Option`.
-/

namespace MPC

/-- Sharing-scheme selector, mirroring the `SHARE_TYPE` configuration
value of coordinator.py line 20 (`"additive"` or `"xor"`). -/
inductive ShareType where
  | additive
  | xor
deriving DecidableEq, Repr

/-- Party count, coordinator.py line 17 (`NUM_PARTIES = 3`). -/
def NUM_PARTIES : ℕ := 3

/-- Prime modulus for additive sharing, coordinator.py line 21 (`MODULUS = 67`). -/
def MODULUS : ℕ := 67

/-- Domain of a single share value on the wire: `[0, p)` for the additive
scheme, a bit for the XOR scheme. -/
def valDomain (st : ShareType) (p v : ℕ) : Prop :=
  match st with
  | .additive => v < p
  | .xor => v ≤ 1

instance (st : ShareType) (p v : ℕ) : Decidable (valDomain st p v) :=
  match st with
  | .additive => inferInstanceAs (Decidable (v < p))
  | .xor => inferInstanceAs (Decidable (v ≤ 1))

/-- Domain of a secret handed to `share_secret`: a residue in `[0, p)` for
the additive scheme, `0` or `1` for the XOR scheme. -/
def secretInDomain (st : ShareType) (p : ℕ) (s : ℤ) : Prop :=
  match st with
  | .additive => 0 ≤ s ∧ s < (p : ℤ)
  | .xor => s = 0 ∨ s = 1

instance (st : ShareType) (p : ℕ) (s : ℤ) : Decidable (secretInDomain st p s) :=
  match st with
  | .additive => inferInstanceAs (Decidable (0 ≤ s ∧ s < (p : ℤ)))
  | .xor => inferInstanceAs (Decidable (s = 0 ∨ s = 1))

/-- Validity of the `N-1` explicit random draws consumed by one call to
`share_secret`: right count, every draw inside the scheme's domain
(`random.randint(0, MODULUS-1)` resp. `random.randint(0, 1)`). -/
def validRands (st : ShareType) (p N : ℕ) (r : List ℕ) : Prop :=
  r.length = N - 1 ∧ ∀ v ∈ r, valDomain st p v

instance (st : ShareType) (p N : ℕ) (r : List ℕ) :
    Decidable (validRands st p N r) :=
  inferInstanceAs (Decidable (r.length = N - 1 ∧ ∀ v ∈ r, valDomain st p v))

/-- The share list built by `MPCCoordinator.share_secret`
(coordinator.py lines 30-37): the `N-1` random draws `rands` followed by
the balancing share, `(secret - sum(shares)) % MODULUS` for the additive
scheme and `secret ^ (sum(shares) % 2)` for the XOR scheme. -/
def shareVec (st : ShareType) (p : ℕ) (secret : ℤ) (rands : List ℕ) : List ℕ :=
  match st with
  | .additive => rands ++ [((secret - (rands.sum : ℤ)) % (p : ℤ)).toNat]
  | .xor => rands ++ [secret.toNat ^^^ (rands.sum % 2)]

/-- `MPCCoordinator.share_secret` (coordinator.py lines 28-37).  The XOR
branch guards `assert secret in (0, 1)`; a failing assertion is modelled
as `none`.  The additive branch performs no domain check. -/
def share_secret (st : ShareType) (p : ℕ) (secret : ℤ) (rands : List ℕ) :
    Option (List ℕ) :=
  match st with
  | .additive => some (shareVec .additive p secret rands)
  | .xor =>
      if secret = 0 ∨ secret = 1 then some (shareVec .xor p secret rands)
      else none

/-- Field addition as performed by the aggregation loops:
`(x + y) % MODULUS` for additive, `x ^ y` for XOR
(coordinator.py lines 97-102, 126-129, 134-137; party.py lines 78-81). -/
def fieldAdd (st : ShareType) (p x y : ℕ) : ℕ :=
  match st with
  | .additive => (x + y) % p
  | .xor => x ^^^ y

/-- Field subtraction used in the masking phase: `(x - y) % mod` for
additive, `x ^ y` for XOR (party.py lines 44-49). -/
def fieldSub (st : ShareType) (p x y : ℕ) : ℕ :=
  match st with
  | .additive => (((x : ℤ) - (y : ℤ)) % (p : ℤ)).toNat
  | .xor => x ^^^ y

/-- Field multiplication: `(x * y) % MODULUS` for additive, `x & y` for
XOR (coordinator.py lines 46, 50, 106). -/
def fieldMul (st : ShareType) (p x y : ℕ) : ℕ :=
  match st with
  | .additive => x * y % p
  | .xor => x &&& y

/-- Field-sum of a list of shares, i.e. the reconstruction fold the
coordinator runs over collected shares (coordinator.py lines 123-129). -/
def fieldSum (st : ShareType) (p : ℕ) (l : List ℕ) : ℕ :=
  l.foldl (fun acc v => fieldAdd st p acc v) 0

/-- Explicit randomness consumed while generating one Beaver triple:
the dealer's raw draws for `a` and `b` plus the sharing randomness for
each of the three `share_secret` calls (coordinator.py lines 42-53). -/
structure TripleRand where
  aVal : ℕ
  bVal : ℕ
  aR : List ℕ
  bR : List ℕ
  cR : List ℕ
deriving DecidableEq, Repr

instance : Inhabited TripleRand := ⟨⟨0, 0, [], [], []⟩⟩

/-- Run a fallible producer once per list element, collecting the
outputs in order and aborting on the first failure — the behaviour of the
Python loops that append the result of each `share_secret` call. -/
def shareEach {α β : Type} (f : α → Option β) : List α → Option (List β)
  | [] => some []
  | x :: xs => do
      let y ← f x
      let ys ← shareEach f xs
      return (y :: ys)

/-- `MPCCoordinator.generate_beaver_triples` (coordinator.py lines 39-54):
for each triple draw `a`, `b`, set `c = a*b % MODULUS` (additive) or
`c = a & b` (XOR), and share each of `a`, `b`, `c` independently. -/
def generate_beaver_triples (st : ShareType) (p : ℕ) (trs : List TripleRand) :
    Option (List (List ℕ) × List (List ℕ) × List (List ℕ)) := do
  let a_list ← shareEach (fun tr => share_secret st p (tr.aVal : ℤ) tr.aR) trs
  let b_list ← shareEach (fun tr => share_secret st p (tr.bVal : ℤ) tr.bR) trs
  let c_list ← shareEach
      (fun tr => share_secret st p ((fieldMul st p tr.aVal tr.bVal : ℕ) : ℤ) tr.cR) trs
  return (a_list, b_list, c_list)

/-- One party's Beaver-triple shares for one multiplication index
(the `beavers[i]` dictionaries of party.py). -/
structure Beaver where
  a : ℕ
  b : ℕ
  c : ℕ
deriving DecidableEq, Repr

instance : Inhabited Beaver := ⟨⟨0, 0, 0⟩⟩

/-- Phase 2 of `MPCParty.run_protocol` (party.py lines 36-54): for each
index, the masked values `d = x - a` and `e = y - b` (Field subtraction). -/
def run_protocol_mask (st : ShareType) (p : ℕ) (x_vec y_vec : List ℕ)
    (beavers : List Beaver) : List ℕ × List ℕ :=
  (List.zipWith (fun x bv => fieldSub st p x bv.a) x_vec beavers,
   List.zipWith (fun y bv => fieldSub st p y bv.b) y_vec beavers)

/-- Phase 4 of `MPCParty.run_protocol` (party.py lines 62-88): per-index
product shares `term` — `(de_shares[i] + d*b + e*a + c) % mod` for the
additive scheme, `(d & b) ^ (e & a) ^ c` for XOR (no cross-term) — and,
when requested, the dot share accumulated as the Field-sum of the terms. -/
def run_protocol_finalize (st : ShareType) (p n : ℕ) (beavers : List Beaver)
    (d_vec e_vec de_shares : List ℕ) (compute_dot : Bool) :
    List ℕ × Option ℕ :=
  let products := (List.range n).map (fun i =>
    let bv := beavers.getD i default
    match st with
    | .additive =>
        (de_shares.getD i 0 + d_vec.getD i 0 * bv.b
          + e_vec.getD i 0 * bv.a + bv.c) % p
    | .xor => (d_vec.getD i 0 &&& bv.b) ^^^ (e_vec.getD i 0 &&& bv.a) ^^^ bv.c)
  (products,
   if compute_dot then some (products.foldl (fun acc t => fieldAdd st p acc t) 0)
   else none)

/-- The coordinator's aggregation loop over per-party vectors: starting
from the all-zero vector of length `n`, Field-add each party's reply
componentwise (coordinator.py lines 92-102 and 123-129). -/
def collect_vec (st : ShareType) (p n : ℕ) (responses : List (List ℕ)) :
    List ℕ :=
  responses.foldl
    (fun acc r => List.zipWith (fun dv rv => fieldAdd st p dv rv) acc r)
    (List.replicate n 0)

/-- `MPCCoordinator.run_computation` (coordinator.py lines 56-150) run
together with every party's `MPCParty.run_protocol`: share the inputs and
triples, let each of the `N` parties mask, aggregate the public `d`, `e`
vectors, re-share the cross terms `d*e` for the additive scheme (skipped
for XOR, line 108), let each party finalize, and reconstruct the products
and the dot product.  The input vectors (hard-coded example values in the
source, lines 61-62) and all randomness are explicit parameters. -/
def run_computation (st : ShareType) (p N : ℕ) (x_vec y_vec : List ℕ)
    (xR yR : List (List ℕ)) (tR : List TripleRand) (deR : List (List ℕ)) :
    Option (List ℕ × ℕ) := do
  let n := x_vec.length
  let x_shares ← shareEach (fun q => share_secret st p (q.1 : ℤ) q.2) (x_vec.zip xR)
  let y_shares ← shareEach (fun q => share_secret st p (q.1 : ℤ) q.2) (y_vec.zip yR)
  let abc ← generate_beaver_triples st p tR
  let payloadX := fun (i : ℕ) => x_shares.map (fun s => s.getD i 0)
  let payloadY := fun (i : ℕ) => y_shares.map (fun s => s.getD i 0)
  let payloadB := fun (i : ℕ) => (List.range n).map (fun j =>
    Beaver.mk ((abc.1.getD j []).getD i 0) ((abc.2.1.getD j []).getD i 0)
      ((abc.2.2.getD j []).getD i 0))
  let responses := (List.range N).map (fun i =>
    run_protocol_mask st p (payloadX i) (payloadY i) (payloadB i))
  let d_vec := collect_vec st p n (responses.map (fun r => r.1))
  let e_vec := collect_vec st p n (responses.map (fun r => r.2))
  let de_shares ← match st with
    | .additive => shareEach (fun j =>
        share_secret st p
          ((fieldMul st p (d_vec.getD j 0) (e_vec.getD j 0) : ℕ) : ℤ)
          (deR.getD j [])) (List.range n)
    | .xor => some (List.replicate n ([] : List ℕ))
  let payloadDe := fun (i : ℕ) => match st with
    | .additive => (List.range n).map (fun j => (de_shares.getD j []).getD i 0)
    | .xor => ([] : List ℕ)
  let result_shares := (List.range N).map (fun i =>
    run_protocol_finalize st p n (payloadB i) d_vec e_vec (payloadDe i) true)
  let products := collect_vec st p n (result_shares.map (fun r => r.1))
  let dot := (result_shares.map (fun r => (r.2).getD 0)).foldl
    (fun acc v => fieldAdd st p acc v) 0
  return (products, dot)

/-- Randomness re-labelling used to witness the hiding property of
`shareVec`: adjust the random draw at position `i` so that sharing `s2`
with the adjusted draws shows the same `N-1` shares (all but index `i`)
as sharing `s1` with the original draws.  When `i` is the index of the
balancing share (out of range for `r`), `List.set` is a no-op and no
adjustment is needed. -/
def hideMap (st : ShareType) (p : ℕ) (s1 s2 : ℤ) (i : ℕ) (r : List ℕ) :
    List ℕ :=
  r.set i
    (match st with
     | .additive => (((r.getD i 0 : ℤ) + s2 - s1) % (p : ℤ)).toNat
     | .xor => r.getD i 0 ^^^ (s1.toNat ^^^ s2.toNat))

/-- Bits behave additively mod 2 under XOR. -/
theorem xor_of_bits (a b : ℕ) (ha : a ≤ 1) (hb : b ≤ 1) :
    a ^^^ b = (a + b) % 2 := by
  interval_cases a <;> interval_cases b <;> rfl

/-- The running mod-`p` addition fold computes the sum mod `p`. -/
theorem foldl_addmod (p : ℕ) :
    ∀ (l : List ℕ) (a : ℕ), a < p →
      l.foldl (fun acc v => (acc + v) % p) a = (a + l.sum) % p := by
  intro l
  induction l with
  | nil =>
      intro a ha
      simp [Nat.mod_eq_of_lt ha]
  | cons h t ih =>
      intro a ha
      have hlt : (a + h) % p < p := Nat.mod_lt _ (by omega)
      simp only [List.foldl_cons, List.sum_cons]
      rw [ih _ hlt, Nat.mod_add_mod]
      congr 1
      omega

/-- The running XOR fold over a list of bits computes the sum mod 2. -/
theorem foldl_xor_bits :
    ∀ (l : List ℕ), (∀ v ∈ l, v ≤ 1) → ∀ a, a ≤ 1 →
      l.foldl (fun acc v => acc ^^^ v) a = (a + l.sum) % 2 := by
  intro l
  induction l with
  | nil =>
      intro _ a ha
      simp only [List.foldl_nil, List.sum_nil, Nat.add_zero]
      omega
  | cons h t ih =>
      intro hl a ha
      have hh : h ≤ 1 := hl h (by simp)
      have hx : a ^^^ h ≤ 1 := by
        rw [xor_of_bits a h ha hh]; omega
      simp only [List.foldl_cons, List.sum_cons]
      rw [ih (fun v hv => hl v (by simp [hv])) _ hx, xor_of_bits a h ha hh]
      omega

/-- `fieldSum` for the additive scheme is the list sum mod `p`. -/
theorem fieldSum_additive (p : ℕ) (hp : 0 < p) (l : List ℕ) :
    fieldSum .additive p l = l.sum % p := by
  have h := foldl_addmod p l 0 hp
  simpa [fieldSum, fieldAdd] using h

/-- `fieldSum` for the XOR scheme on bit lists is the list sum mod 2. -/
theorem fieldSum_xor (p : ℕ) (l : List ℕ) (hl : ∀ v ∈ l, v ≤ 1) :
    fieldSum .xor p l = l.sum % 2 := by
  have h := foldl_xor_bits l hl 0 (by omega)
  simpa [fieldSum, fieldAdd] using h

/-- The share list always has one more element than the random draws. -/
theorem length_shareVec (st : ShareType) (p : ℕ) (s : ℤ) (r : List ℕ) :
    (shareVec st p s r).length = r.length + 1 := by
  cases st <;> simp [shareVec]

/-- For an in-domain secret, `share_secret` succeeds and returns the
share list `shareVec`. -/
theorem share_secret_eq_some (st : ShareType) (p : ℕ) (s : ℤ) (r : List ℕ)
    (hs : secretInDomain st p s) :
    share_secret st p s r = some (shareVec st p s r) := by
  cases st with
  | additive => rfl
  | xor =>
      have h2 : s = 0 ∨ s = 1 := hs
      simp [share_secret, h2]

/-- XOR-scheme reconstruction of a share list built from bit draws. -/
theorem fieldSum_shareVec_xor (p b : ℕ) (hb : b ≤ 1) (r : List ℕ)
    (hr : ∀ v ∈ r, v ≤ 1) :
    fieldSum .xor p (r ++ [b ^^^ (r.sum % 2)]) = b := by
  have h2 : r.sum % 2 ≤ 1 := by omega
  have hlast : b ^^^ (r.sum % 2) ≤ 1 := by
    rw [xor_of_bits _ _ hb h2]; omega
  rw [fieldSum_xor]
  · rw [List.sum_append, List.sum_cons, List.sum_nil,
      xor_of_bits _ _ hb h2]
    omega
  · intro v hv
    rcases List.mem_append.mp hv with h | h
    · exact hr v h
    · rw [List.mem_singleton] at h
      subst h
      exact hlast

/-- Reconstruction of `shareVec` gives back any in-domain secret. -/
theorem fieldSum_shareVec (st : ShareType) (p : ℕ) (s : ℤ) (r : List ℕ)
    (hp : 0 < p) (hs : secretInDomain st p s)
    (hr : ∀ v ∈ r, valDomain st p v) :
    ((fieldSum st p (shareVec st p s r) : ℕ) : ℤ) = s := by
  cases st with
  | additive =>
      obtain ⟨hs0, hs1⟩ := hs
      have hpz : (p : ℤ) ≠ 0 := by exact_mod_cast hp.ne'
      have ht : ((((s - (r.sum : ℤ)) % (p : ℤ)).toNat : ℕ) : ℤ)
          = (s - (r.sum : ℤ)) % (p : ℤ) :=
        Int.toNat_of_nonneg (Int.emod_nonneg _ hpz)
      simp only [shareVec]
      rw [fieldSum_additive p hp, List.sum_append, List.sum_cons,
        List.sum_nil, Nat.add_zero, Int.natCast_mod, Nat.cast_add, ht]
      have h1 : ((r.sum : ℤ) + (s - (r.sum : ℤ)) % (p : ℤ)) % (p : ℤ)
          = ((r.sum : ℤ) + (s - (r.sum : ℤ))) % (p : ℤ) :=
        Int.ModEq.add_left _ (Int.emod_emod_of_dvd _ dvd_rfl)
      rw [h1]
      have h2 : (r.sum : ℤ) + (s - (r.sum : ℤ)) = s := by ring
      rw [h2]
      exact Int.emod_eq_of_lt hs0 hs1
  | xor =>
      have hr1 : ∀ v ∈ r, v ≤ 1 := hr
      rcases hs with rfl | rfl
      · have h := fieldSum_shareVec_xor p 0 (by omega) r hr1
        simp only [shareVec, Int.toNat_zero]
        rw [h]
        rfl
      · have h := fieldSum_shareVec_xor p 1 (by omega) r hr1
        simp only [shareVec, Int.toNat_one]
        rw [h]
        rfl

/-- Claim C3: share/reconstruct round trip — for both schemes and every
in-domain secret, `share_secret` succeeds, returns exactly `N` shares,
and their Field-sum reconstructs the secret. -/
theorem share_reconstruct_roundtrip (st : ShareType) (p N : ℕ) (s : ℤ)
    (r : List ℕ) (hp : 0 < p) (hN : 1 ≤ N)
    (hs : secretInDomain st p s) (hr : validRands st p N r) :
    ∃ shares, share_secret st p s r = some shares ∧ shares.length = N ∧
      ((fieldSum st p shares : ℕ) : ℤ) = s := by
  refine ⟨shareVec st p s r, share_secret_eq_some st p s r hs, ?_,
    fieldSum_shareVec st p s r hp hs hr.2⟩
  rw [length_shareVec, hr.1]
  omega

/-- Witness for claim C3 at a concrete additive instance. -/
theorem share_reconstruct_roundtrip_witness :
    secretInDomain .additive 67 5 ∧ validRands .additive 67 3 [10, 20] ∧
      ∃ shares, share_secret .additive 67 5 [10, 20] = some shares ∧
        shares.length = 3 ∧ ((fieldSum .additive 67 shares : ℕ) : ℤ) = 5 :=
  ⟨by decide, by decide,
    share_reconstruct_roundtrip .additive 67 3 5 [10, 20] (by decide)
      (by decide) (by decide) (by decide)⟩

/-- Claim C10: the additive `share_secret` never fails for any integer
secret (including negative ones and ones at least the modulus); it
returns `N` shares, each in `[0, p)`, whose sum is congruent to the
secret mod `p` — an out-of-domain secret is reduced, not rejected. -/
theorem additive_share_total (p N : ℕ) (s : ℤ) (r : List ℕ)
    (hp : 0 < p) (hN : 1 ≤ N) (hr : validRands .additive p N r) :
    share_secret .additive p s r = some (shareVec .additive p s r) ∧
      (shareVec .additive p s r).length = N ∧
      (∀ v ∈ shareVec .additive p s r, v < p) ∧
      ((shareVec .additive p s r).sum : ℤ) % (p : ℤ) = s % (p : ℤ) := by
  have hpz : (p : ℤ) ≠ 0 := by exact_mod_cast hp.ne'
  have hpz2 : (0 : ℤ) < (p : ℤ) := by exact_mod_cast hp
  have ht : ((((s - (r.sum : ℤ)) % (p : ℤ)).toNat : ℕ) : ℤ)
      = (s - (r.sum : ℤ)) % (p : ℤ) :=
    Int.toNat_of_nonneg (Int.emod_nonneg _ hpz)
  refine ⟨rfl, ?_, ?_, ?_⟩
  · rw [length_shareVec, hr.1]
    omega
  · intro v hv
    simp only [shareVec] at hv
    rcases List.mem_append.mp hv with h | h
    · exact hr.2 v h
    · rw [List.mem_singleton] at h
      subst h
      have hlt := Int.emod_lt_of_pos (s - (r.sum : ℤ)) hpz2
      have hnn := Int.emod_nonneg (s - (r.sum : ℤ)) hpz
      omega
  · simp only [shareVec, List.sum_append, List.sum_cons, List.sum_nil,
      Nat.add_zero]
    rw [Nat.cast_add, ht]
    have h1 : ((r.sum : ℤ) + (s - (r.sum : ℤ)) % (p : ℤ)) % (p : ℤ)
        = ((r.sum : ℤ) + (s - (r.sum : ℤ))) % (p : ℤ) :=
      Int.ModEq.add_left _ (Int.emod_emod_of_dvd _ dvd_rfl)
    rw [h1]
    have h2 : (r.sum : ℤ) + (s - (r.sum : ℤ)) = s := by ring
    rw [h2]

/-- Witness for claim C10 at a negative secret. -/
theorem additive_share_total_witness :
    validRands .additive 67 3 [10, 20] ∧
      (share_secret .additive 67 (-5) [10, 20]
          = some (shareVec .additive 67 (-5) [10, 20]) ∧
        (shareVec .additive 67 (-5) [10, 20]).length = 3 ∧
        (∀ v ∈ shareVec .additive 67 (-5) [10, 20], v < 67) ∧
        ((shareVec .additive 67 (-5) [10, 20]).sum : ℤ) % (67 : ℤ)
          = (-5 : ℤ) % (67 : ℤ)) :=
  ⟨by decide,
    additive_share_total 67 3 (-5) [10, 20] (by decide) (by decide) (by decide)⟩

/-- Claim C7 counterexample: the additive scheme accepts the
out-of-domain secret 100 (modulus 67) without any failure and produces a
full share list, refuting the claim that every out-of-domain secret is
rejected with no shares produced. -/
theorem share_secret_accepts_out_of_domain :
    ¬ secretInDomain .additive 67 100 ∧
      share_secret .additive 67 100 [0, 0] = some [0, 0, 33] := by decide

/-- Claim C7 (amended): only the XOR scheme rejects out-of-domain
secrets — `share_secret` fails (assertion modelled as `none`) for a
non-bit secret under XOR, producing no shares. -/
theorem share_secret_xor_rejects (p : ℕ) (s : ℤ) (r : List ℕ)
    (h : ¬ secretInDomain .xor p s) :
    share_secret .xor p s r = none := by
  have h2 : ¬ (s = 0 ∨ s = 1) := h
  simp [share_secret, h2]

/-- Witness for the amended claim C7. -/
theorem share_secret_xor_rejects_witness :
    ¬ secretInDomain .xor 67 5 ∧ share_secret .xor 67 5 [1] = none :=
  ⟨by decide, share_secret_xor_rejects 67 5 [1] (by decide)⟩

/-- When the producer succeeds on every list element, `shareEach`
collects exactly the mapped outputs. -/
theorem shareEach_some {α β : Type} (f : α → Option β) (g : α → β) :
    ∀ (l : List α), (∀ x ∈ l, f x = some (g x)) →
      shareEach f l = some (l.map g) := by
  intro l
  induction l with
  | nil => intro _; rfl
  | cons x xs ih =>
      intro h
      simp only [shareEach, h x (by simp),
        ih (fun y hy => h y (by simp [hy])), List.map_cons]
      rfl

/-- `getD` commutes with `map` at an in-range index. -/
theorem getD_map_of_lt {α β : Type} (f : α → β) (d : β) (d0 : α) :
    ∀ (l : List α) (j : ℕ), j < l.length →
      (l.map f).getD j d = f (l.getD j d0) := by
  intro l
  induction l with
  | nil => intro j hj; simp at hj
  | cons x xs ih =>
      intro j hj
      cases j with
      | zero => rfl
      | succ k =>
          exact ih k (by simp only [List.length_cons] at hj; omega)

/-- `getD` at an in-range index is a member of the list. -/
theorem getD_mem_of_lt {α : Type} (d : α) :
    ∀ (l : List α) (j : ℕ), j < l.length → l.getD j d ∈ l := by
  intro l
  induction l with
  | nil => intro j hj; simp at hj
  | cons x xs ih =>
      intro j hj
      cases j with
      | zero => simp
      | succ k =>
          have hk : k < xs.length := by
            simp only [List.length_cons] at hj; omega
          exact List.mem_cons_of_mem x (ih k hk)

/-- A valid share value is a valid secret once cast to `ℤ`. -/
theorem secretInDomain_of_valDomain (st : ShareType) (p v : ℕ)
    (h : valDomain st p v) : secretInDomain st p (v : ℤ) := by
  cases st with
  | additive =>
      have h1 : v < p := h
      exact ⟨Int.natCast_nonneg v, by exact_mod_cast h1⟩
  | xor =>
      have h1 : v ≤ 1 := h
      interval_cases v
      · exact Or.inl rfl
      · exact Or.inr rfl

/-- The Field product of two in-domain values is in-domain. -/
theorem valDomain_fieldMul (st : ShareType) (p a b : ℕ) (hp : 0 < p)
    (ha : valDomain st p a) (hb : valDomain st p b) :
    valDomain st p (fieldMul st p a b) := by
  cases st with
  | additive => exact Nat.mod_lt _ hp
  | xor =>
      have ha1 : a ≤ 1 := ha
      have hb1 : b ≤ 1 := hb
      interval_cases a <;> interval_cases b <;> simp [valDomain, fieldMul]

/-- Claim C4: every Beaver triple produced by `generate_beaver_triples`
reconstructs to `c = mul(a, b)` (`c` is computed as `fieldMul` of the
dealer draws before sharing), each of `a`, `b`, `c` is shared into a
vector of `N` shares, and exactly `n` triples are returned. -/
theorem generate_beaver_triples_correct (st : ShareType) (p N : ℕ)
    (trs : List TripleRand) (hp : 0 < p) (hN : 1 ≤ N)
    (hdom : ∀ tr ∈ trs, valDomain st p tr.aVal ∧ valDomain st p tr.bVal ∧
      validRands st p N tr.aR ∧ validRands st p N tr.bR ∧
      validRands st p N tr.cR) :
    ∃ as bs cs, generate_beaver_triples st p trs = some (as, bs, cs) ∧
      as.length = trs.length ∧ bs.length = trs.length ∧
      cs.length = trs.length ∧
      ∀ j, j < trs.length →
        (as.getD j []).length = N ∧ (bs.getD j []).length = N ∧
        (cs.getD j []).length = N ∧
        fieldSum st p (cs.getD j [])
          = fieldMul st p (trs.getD j default).aVal (trs.getD j default).bVal := by
  have hA : ∀ tr ∈ trs, share_secret st p (tr.aVal : ℤ) tr.aR
      = some (shareVec st p (tr.aVal : ℤ) tr.aR) := fun tr htr =>
    share_secret_eq_some st p _ _
      (secretInDomain_of_valDomain st p _ (hdom tr htr).1)
  have hB : ∀ tr ∈ trs, share_secret st p (tr.bVal : ℤ) tr.bR
      = some (shareVec st p (tr.bVal : ℤ) tr.bR) := fun tr htr =>
    share_secret_eq_some st p _ _
      (secretInDomain_of_valDomain st p _ (hdom tr htr).2.1)
  have hC : ∀ tr ∈ trs,
      share_secret st p ((fieldMul st p tr.aVal tr.bVal : ℕ) : ℤ) tr.cR
        = some (shareVec st p ((fieldMul st p tr.aVal tr.bVal : ℕ) : ℤ) tr.cR) :=
    fun tr htr =>
      share_secret_eq_some st p _ _
        (secretInDomain_of_valDomain st p _
          (valDomain_fieldMul st p _ _ hp (hdom tr htr).1 (hdom tr htr).2.1))
  have eA := shareEach_some (fun tr => share_secret st p (tr.aVal : ℤ) tr.aR)
    (fun tr => shareVec st p (tr.aVal : ℤ) tr.aR) trs hA
  have eB := shareEach_some (fun tr => share_secret st p (tr.bVal : ℤ) tr.bR)
    (fun tr => shareVec st p (tr.bVal : ℤ) tr.bR) trs hB
  have eC := shareEach_some
    (fun tr => share_secret st p ((fieldMul st p tr.aVal tr.bVal : ℕ) : ℤ) tr.cR)
    (fun tr => shareVec st p ((fieldMul st p tr.aVal tr.bVal : ℕ) : ℤ) tr.cR)
    trs hC
  refine ⟨trs.map (fun tr => shareVec st p (tr.aVal : ℤ) tr.aR),
    trs.map (fun tr => shareVec st p (tr.bVal : ℤ) tr.bR),
    trs.map (fun tr => shareVec st p ((fieldMul st p tr.aVal tr.bVal : ℕ) : ℤ) tr.cR),
    ?_, by simp, by simp, by simp, ?_⟩
  · simp only [generate_beaver_triples, eA, eB, eC]
    rfl
  · intro j hj
    have htr : trs.getD j default ∈ trs := getD_mem_of_lt default trs j hj
    obtain ⟨h1, h2, h3, h4, h5⟩ := hdom _ htr
    rw [getD_map_of_lt (fun tr => shareVec st p (tr.aVal : ℤ) tr.aR) [] default trs j hj,
      getD_map_of_lt (fun tr => shareVec st p (tr.bVal : ℤ) tr.bR) [] default trs j hj,
      getD_map_of_lt
        (fun tr => shareVec st p ((fieldMul st p tr.aVal tr.bVal : ℕ) : ℤ) tr.cR)
        [] default trs j hj]
    refine ⟨?_, ?_, ?_, ?_⟩
    · rw [length_shareVec, h3.1]; omega
    · rw [length_shareVec, h4.1]; omega
    · rw [length_shareVec, h5.1]; omega
    · have hdomc := secretInDomain_of_valDomain st p _
        (valDomain_fieldMul st p _ _ hp h1 h2)
      have := fieldSum_shareVec st p
        ((fieldMul st p (trs.getD j default).aVal (trs.getD j default).bVal : ℕ) : ℤ)
        (trs.getD j default).cR hp hdomc h5.2
      exact_mod_cast this

/-- Witness for claim C4 at a concrete additive batch of one triple. -/
theorem generate_beaver_triples_correct_witness :
    (∀ tr ∈ [TripleRand.mk 5 8 [1, 2] [3, 4] [5, 6]],
      valDomain .additive 67 tr.aVal ∧ valDomain .additive 67 tr.bVal ∧
      validRands .additive 67 3 tr.aR ∧ validRands .additive 67 3 tr.bR ∧
      validRands .additive 67 3 tr.cR) ∧
    ∃ as bs cs,
      generate_beaver_triples .additive 67 [TripleRand.mk 5 8 [1, 2] [3, 4] [5, 6]]
          = some (as, bs, cs) ∧
        as.length = 1 ∧ bs.length = 1 ∧ cs.length = 1 ∧
        ∀ j, j < 1 →
          (as.getD j []).length = 3 ∧ (bs.getD j []).length = 3 ∧
          (cs.getD j []).length = 3 ∧
          fieldSum .additive 67 (cs.getD j [])
            = fieldMul .additive 67
                (([TripleRand.mk 5 8 [1, 2] [3, 4] [5, 6]].getD j default).aVal)
                (([TripleRand.mk 5 8 [1, 2] [3, 4] [5, 6]].getD j default).bVal) :=
  ⟨by decide,
    generate_beaver_triples_correct .additive 67 3
      [TripleRand.mk 5 8 [1, 2] [3, 4] [5, 6]] (by decide) (by decide) (by decide)⟩

/-- Claim C1 (code evaluated at a failing input): in the XOR scheme with
N = 2 parties, x = [1], y = [1], dealer triple a = 0, b = 0 (so
c = a & b = 0) and all-zero sharing randomness, the full mask-finalize
run reconstructs products = [0] and dot = 0, although
mul(x_0, y_0) = 1 & 1 = 1.  The XOR branch of the finalize stage omits
the re-shared d&e cross-term (party.py line 74, coordinator.py line 108),
so end-to-end multiplication correctness fails for the XOR scheme. -/
theorem run_computation_xor_product_incorrect :
    run_computation .xor 67 2 [1] [1] [[0]] [[0]] [⟨0, 0, [0], [0], [0]⟩] []
        = some ([0], 0) ∧
      fieldMul .xor 67 1 1 = 1 := by decide

/-- Claim C2 (code evaluated at the failing input): concrete scenario B —
XOR scheme, N = 3, x = [1, 0, 1], y = [1, 1, 0] — run with the all-zero
dealer and sharing randomness reconstructs products = [0, 0, 0] and
dot = 0, not the claimed products = [1, 0, 0] and dot = 1: the code does
not re-share and apply the d&e cross-term for the XOR scheme. -/
theorem scenario_b_xor_run_incorrect :
    run_computation .xor 67 3 [1, 0, 1] [1, 1, 0]
        [[0, 0], [0, 0], [0, 0]] [[0, 0], [0, 0], [0, 0]]
        [⟨0, 0, [0, 0], [0, 0], [0, 0]⟩, ⟨0, 0, [0, 0], [0, 0], [0, 0]⟩,
          ⟨0, 0, [0, 0], [0, 0], [0, 0]⟩]
        [] = some ([0, 0, 0], 0) := by decide

/-- Claim C5 (code evaluated at a failing input): in the XOR scheme with
N = 2, x = [1], y = [1], sharing randomness xR = [[1]], yR = [[0]] and
the zero dealer triple, the run reconstructs dot = 0, although the
Field-sum over j of mul(x_j, y_j) is 1 — the XOR dot product inherits
the missing d&e cross-term. -/
theorem run_computation_xor_dot_incorrect :
    run_computation .xor 67 2 [1] [1] [[1]] [[0]] [⟨0, 0, [0], [0], [0]⟩] []
        = some ([0], 0) ∧
      fieldSum .xor 67 [fieldMul .xor 67 1 1] = 1 := by decide

/-- `List.set` past the end of the list is a no-op. -/
theorem set_oob {α : Type} :
    ∀ (l : List α) (i : ℕ) (a : α), l.length ≤ i → l.set i a = l := by
  intro l
  induction l with
  | nil => intro i a _; cases i <;> rfl
  | cons x xs ih =>
      intro i a h
      cases i with
      | zero => simp at h
      | succ k =>
          have hk : xs.length ≤ k := by
            simp only [List.length_cons] at h; omega
          show x :: xs.set k a = x :: xs
          rw [ih k a hk]

/-- `getD` past the end of the list returns the default. -/
theorem getD_oob {α : Type} (d : α) :
    ∀ (l : List α) (i : ℕ), l.length ≤ i → l.getD i d = d := by
  intro l
  induction l with
  | nil => intro i _; cases i <;> rfl
  | cons x xs ih =>
      intro i h
      cases i with
      | zero => simp at h
      | succ k =>
          have hk : xs.length ≤ k := by
            simp only [List.length_cons] at h; omega
          exact ih k hk

/-- Reading back the value just written by `List.set`. -/
theorem getD_set_self {α : Type} (d : α) :
    ∀ (l : List α) (i : ℕ) (v : α), i < l.length →
      (l.set i v).getD i d = v := by
  intro l
  induction l with
  | nil => intro i v h; simp at h
  | cons x xs ih =>
      intro i v h
      cases i with
      | zero => rfl
      | succ k =>
          exact ih k v (by simp only [List.length_cons] at h; omega)

/-- Writing back the value already present leaves the list unchanged. -/
theorem set_getD_self {α : Type} (d : α) :
    ∀ (l : List α) (i : ℕ), l.set i (l.getD i d) = l := by
  intro l
  induction l with
  | nil => intro i; cases i <;> rfl
  | cons x xs ih =>
      intro i
      cases i with
      | zero => rfl
      | succ k =>
          show x :: xs.set k (xs.getD k d) = x :: xs
          rw [ih k]

/-- Effect of `List.set` on the sum, stated without truncated subtraction. -/
theorem sum_set :
    ∀ (l : List ℕ) (i : ℕ) (v : ℕ), i < l.length →
      (l.set i v).sum + l.getD i 0 = l.sum + v := by
  intro l
  induction l with
  | nil => intro i v h; simp at h
  | cons x xs ih =>
      intro i v h
      cases i with
      | zero =>
          show (v :: xs).sum + x = (x :: xs).sum + v
          simp only [List.sum_cons]
          omega
      | succ k =>
          have hk : k < xs.length := by
            simp only [List.length_cons] at h; omega
          show (x :: xs.set k v).sum + xs.getD k 0 = (x :: xs).sum + v
          simp only [List.sum_cons]
          have := ih k v hk
          omega

/-- `eraseIdx` inside the left part of an append. -/
theorem eraseIdx_append_lt {α : Type} :
    ∀ (l t : List α) (i : ℕ), i < l.length →
      (l ++ t).eraseIdx i = l.eraseIdx i ++ t := by
  intro l
  induction l with
  | nil => intro t i h; simp at h
  | cons x xs ih =>
      intro t i h
      cases i with
      | zero => rfl
      | succ k =>
          have hk : k < xs.length := by
            simp only [List.length_cons] at h; omega
          show x :: (xs ++ t).eraseIdx k = x :: (xs.eraseIdx k ++ t)
          rw [ih t k hk]

/-- Erasing the appended last element recovers the original list. -/
theorem eraseIdx_append_last {α : Type} :
    ∀ (l : List α) (x : α), (l ++ [x]).eraseIdx l.length = l := by
  intro l
  induction l with
  | nil => intro x; rfl
  | cons y ys ih =>
      intro x
      show y :: (ys ++ [x]).eraseIdx ys.length = y :: ys
      rw [ih x]

/-- Erasing the overwritten position makes the overwrite invisible. -/
theorem eraseIdx_set_self {α : Type} :
    ∀ (l : List α) (i : ℕ) (v : α),
      (l.set i v).eraseIdx i = l.eraseIdx i := by
  intro l
  induction l with
  | nil => intro i v; cases i <;> rfl
  | cons x xs ih =>
      intro i v
      cases i with
      | zero => rfl
      | succ k =>
          show x :: (xs.set k v).eraseIdx k = x :: xs.eraseIdx k
          rw [ih k v]

/-- Membership in a list after `List.set`. -/
theorem mem_set_cases {α : Type} :
    ∀ (l : List α) (i : ℕ) (v u : α), u ∈ l.set i v → u ∈ l ∨ u = v := by
  intro l
  induction l with
  | nil => intro i v u h; cases i <;> simp at h
  | cons x xs ih =>
      intro i v u h
      cases i with
      | zero =>
          rcases List.mem_cons.mp h with h1 | h1
          · exact Or.inr h1
          · exact Or.inl (List.mem_cons_of_mem x h1)
      | succ k =>
          rcases List.mem_cons.mp h with h1 | h1
          · exact Or.inl (by rw [h1]; exact List.mem_cons_self x xs)
          · rcases ih k v u h1 with h2 | h2
            · exact Or.inl (List.mem_cons_of_mem x h2)
            · exact Or.inr h2

/-- Cancellation law used to invert the XOR randomness re-labelling. -/
theorem xor_xor_cancel (x y z : ℕ) : (x ^^^ (y ^^^ z)) ^^^ (z ^^^ y) = x := by
  rw [Nat.xor_assoc, Nat.xor_comm z y, Nat.xor_self, Nat.xor_zero]

/-- Balancing-share equality for the additive randomness re-labelling:
replacing the draw at `i` by any `v` congruent to `r_i + s2 - s1` mod `p`
makes the balancing share for `s2` equal the one for `s1`. -/
theorem balancing_additive_gen (p : ℕ) (hp : 0 < p) (s1 s2 : ℤ)
    (r : List ℕ) (i v : ℕ) (hlt : i < r.length) (hri : r.getD i 0 < p)
    (hv : (v : ℤ) = (((r.getD i 0 : ℕ) : ℤ) + s2 - s1) % (p : ℤ)) :
    ((s2 - (((r.set i v).sum : ℕ) : ℤ)) % (p : ℤ)).toNat
      = ((s1 - ((r.sum : ℕ) : ℤ)) % (p : ℤ)).toNat := by
  have hs := sum_set r i v hlt
  have hcast : (((r.set i v).sum : ℕ) : ℤ)
      = ((r.sum : ℕ) : ℤ) + (v : ℤ) - ((r.getD i 0 : ℕ) : ℤ) := by
    have h2 : (((r.set i v).sum : ℕ) : ℤ) + ((r.getD i 0 : ℕ) : ℤ)
        = ((r.sum : ℕ) : ℤ) + (v : ℤ) := by exact_mod_cast hs
    omega
  have hmod : (v : ℤ) ≡ (((r.getD i 0 : ℕ) : ℤ) + s2 - s1) [ZMOD (p : ℤ)] := by
    rw [hv]
    exact Int.emod_emod_of_dvd _ dvd_rfl
  have hcong : (s2 - (((r.sum : ℕ) : ℤ) + (v : ℤ) - ((r.getD i 0 : ℕ) : ℤ)))
      ≡ (s2 - (((r.sum : ℕ) : ℤ) + ((((r.getD i 0 : ℕ) : ℤ) + s2 - s1))
          - ((r.getD i 0 : ℕ) : ℤ))) [ZMOD (p : ℤ)] :=
    Int.ModEq.sub (Int.ModEq.refl _)
      (Int.ModEq.sub (Int.ModEq.add_left _ hmod) (Int.ModEq.refl _))
  have hring : s2 - (((r.sum : ℕ) : ℤ) + ((((r.getD i 0 : ℕ) : ℤ) + s2 - s1))
      - ((r.getD i 0 : ℕ) : ℤ)) = s1 - ((r.sum : ℕ) : ℤ) := by ring
  rw [hring] at hcong
  rw [hcast]
  exact congrArg Int.toNat hcong

/-- Balancing-share equality for the XOR randomness re-labelling:
replacing the bit at `i` by `r_i ^^^ (b1 ^^^ b2)` makes the balancing
share for `b2` equal the one for `b1`. -/
theorem xor_balancing_core (b1 b2 : ℕ) (hb1 : b1 ≤ 1) (hb2 : b2 ≤ 1)
    (r : List ℕ) (i v : ℕ) (hlt : i < r.length) (hri : r.getD i 0 ≤ 1)
    (hv : v = r.getD i 0 ^^^ (b1 ^^^ b2)) :
    b2 ^^^ ((r.set i v).sum % 2) = b1 ^^^ (r.sum % 2) := by
  have hb12 : b1 ^^^ b2 = (b1 + b2) % 2 := xor_of_bits _ _ hb1 hb2
  have hv2 : v = (r.getD i 0 + (b1 + b2) % 2) % 2 := by
    rw [hv, hb12]
    exact xor_of_bits _ _ hri (by omega)
  have hs := sum_set r i v hlt
  rw [xor_of_bits b2 _ hb2 (by omega), xor_of_bits b1 _ hb1 (by omega)]
  omega

/-- The randomness re-labelling preserves validity of the draws. -/
theorem hideMap_valid (st : ShareType) (p N : ℕ) (s1 s2 : ℤ) (i : ℕ)
    (r : List ℕ) (hp : 0 < p) (h1 : secretInDomain st p s1)
    (h2 : secretInDomain st p s2) (hr : validRands st p N r) :
    validRands st p N (hideMap st p s1 s2 i r) := by
  obtain ⟨hlen, hdom⟩ := hr
  constructor
  · simp only [hideMap, List.length_set]
    exact hlen
  · intro u hu
    simp only [hideMap] at hu
    rcases mem_set_cases _ _ _ _ hu with h | h
    · exact hdom u h
    · subst h
      cases st with
      | additive =>
          have hpz : (p : ℤ) ≠ 0 := by exact_mod_cast hp.ne'
          have hppos : (0 : ℤ) < (p : ℤ) := by exact_mod_cast hp
          have hnn := Int.emod_nonneg (((r.getD i 0 : ℕ) : ℤ) + s2 - s1) hpz
          have hlt := Int.emod_lt_of_pos (((r.getD i 0 : ℕ) : ℤ) + s2 - s1) hppos
          show ((((r.getD i 0 : ℕ) : ℤ) + s2 - s1) % (p : ℤ)).toNat < p
          omega
      | xor =>
          have hri : r.getD i 0 ≤ 1 := by
            by_cases hlt : i < r.length
            · exact hdom _ (getD_mem_of_lt 0 r i hlt)
            · rw [getD_oob 0 r i (by omega)]
              omega
          have hb1 : s1.toNat ≤ 1 := by rcases h1 with rfl | rfl <;> decide
          have hb2 : s2.toNat ≤ 1 := by rcases h2 with rfl | rfl <;> decide
          show r.getD i 0 ^^^ (s1.toNat ^^^ s2.toNat) ≤ 1
          rw [xor_of_bits _ _ hb1 hb2, xor_of_bits _ _ hri (by omega)]
          omega

/-- The randomness re-labelling with `s1`, `s2` swapped inverts it. -/
theorem hideMap_inverse (st : ShareType) (p : ℕ) (s1 s2 : ℤ) (i : ℕ)
    (r : List ℕ) (hp : 0 < p) (h1 : secretInDomain st p s1)
    (h2 : secretInDomain st p s2) (hr : ∀ v ∈ r, valDomain st p v) :
    hideMap st p s2 s1 i (hideMap st p s1 s2 i r) = r := by
  by_cases hlt : i < r.length
  · cases st with
    | additive =>
        have hri : r.getD i 0 < p := hr _ (getD_mem_of_lt 0 r i hlt)
        have hpz : (p : ℤ) ≠ 0 := by exact_mod_cast hp.ne'
        simp only [hideMap]
        rw [getD_set_self 0 r i _ hlt, List.set_set]
        have hV : (((((r.getD i 0 : ℕ) : ℤ) + s2 - s1) % (p : ℤ)).toNat : ℤ)
            = (((r.getD i 0 : ℕ) : ℤ) + s2 - s1) % (p : ℤ) :=
          Int.toNat_of_nonneg (Int.emod_nonneg _ hpz)
        have hm : ((((r.getD i 0 : ℕ) : ℤ) + s2 - s1) % (p : ℤ) + s1 - s2)
            ≡ ((((r.getD i 0 : ℕ) : ℤ) + s2 - s1) + s1 - s2) [ZMOD (p : ℤ)] :=
          Int.ModEq.sub (Int.ModEq.add_right _ (Int.emod_emod_of_dvd _ dvd_rfl))
            (Int.ModEq.refl _)
        have hsimp : (((r.getD i 0 : ℕ) : ℤ) + s2 - s1) + s1 - s2
            = ((r.getD i 0 : ℕ) : ℤ) := by ring
        rw [hsimp] at hm
        have hm2 : ((((r.getD i 0 : ℕ) : ℤ) + s2 - s1) % (p : ℤ) + s1 - s2) % (p : ℤ)
            = ((r.getD i 0 : ℕ) : ℤ) % (p : ℤ) := hm
        have hri2 : ((r.getD i 0 : ℕ) : ℤ) % (p : ℤ) = ((r.getD i 0 : ℕ) : ℤ) :=
          Int.emod_eq_of_lt (Int.natCast_nonneg _) (by exact_mod_cast hri)
        rw [hV, hm2, hri2, Int.toNat_natCast]
        exact set_getD_self 0 r i
    | xor =>
        simp only [hideMap]
        rw [getD_set_self 0 r i _ hlt, List.set_set, xor_xor_cancel]
        exact set_getD_self 0 r i
  · have hle : r.length ≤ i := by omega
    have hinner : hideMap st p s1 s2 i r = r := by
      simp only [hideMap]
      exact set_oob r i _ hle
    rw [hinner]
    simp only [hideMap]
    exact set_oob r i _ hle

/-- After erasing the share at index `i`, sharing `s2` with the
re-labelled draws is indistinguishable from sharing `s1` with the
original draws. -/
theorem hideMap_erase (st : ShareType) (p N : ℕ) (s1 s2 : ℤ) (i : ℕ)
    (r : List ℕ) (hp : 0 < p) (h1 : secretInDomain st p s1)
    (h2 : secretInDomain st p s2) (hi : i < N) (hr : validRands st p N r) :
    (shareVec st p s2 (hideMap st p s1 s2 i r)).eraseIdx i
      = (shareVec st p s1 r).eraseIdx i := by
  obtain ⟨hlen, hdom⟩ := hr
  by_cases hlt : i < r.length
  · cases st with
    | additive =>
        have hri : r.getD i 0 < p := hdom _ (getD_mem_of_lt 0 r i hlt)
        have hpz : (p : ℤ) ≠ 0 := by exact_mod_cast hp.ne'
        simp only [hideMap, shareVec]
        rw [eraseIdx_append_lt _ _ i (by rw [List.length_set]; exact hlt),
          eraseIdx_append_lt _ _ i hlt, eraseIdx_set_self]
        have hX := balancing_additive_gen p hp s1 s2 r i
          ((((r.getD i 0 : ℕ) : ℤ) + s2 - s1) % (p : ℤ)).toNat hlt hri
          (Int.toNat_of_nonneg (Int.emod_nonneg _ hpz))
        rw [hX]
    | xor =>
        have hri : r.getD i 0 ≤ 1 := hdom _ (getD_mem_of_lt 0 r i hlt)
        have hb1 : s1.toNat ≤ 1 := by rcases h1 with rfl | rfl <;> decide
        have hb2 : s2.toNat ≤ 1 := by rcases h2 with rfl | rfl <;> decide
        simp only [hideMap, shareVec]
        rw [eraseIdx_append_lt _ _ i (by rw [List.length_set]; exact hlt),
          eraseIdx_append_lt _ _ i hlt, eraseIdx_set_self]
        have hX := xor_balancing_core s1.toNat s2.toNat hb1 hb2 r i
          (r.getD i 0 ^^^ (s1.toNat ^^^ s2.toNat)) hlt hri rfl
        rw [hX]
  · have hieq : i = r.length := by omega
    have hnoop : hideMap st p s1 s2 i r = r := by
      simp only [hideMap]
      exact set_oob r i _ (by omega)
    rw [hnoop]
    cases st with
    | additive =>
        simp only [shareVec]
        rw [hieq, eraseIdx_append_last, eraseIdx_append_last]
    | xor =>
        simp only [shareVec]
        rw [hieq, eraseIdx_append_last, eraseIdx_append_last]

/-- Every full vector of in-domain values is a share vector of some
in-domain secret under some valid randomness: the Field-sum determines
the secret late. -/
theorem shareVec_surjective (st : ShareType) (p N : ℕ) (w : List ℕ)
    (hp : 0 < p) (hN : 1 ≤ N) (hw : w.length = N)
    (hdom : ∀ v ∈ w, valDomain st p v) :
    ∃ s r, secretInDomain st p s ∧ validRands st p N r ∧
      shareVec st p s r = w := by
  have hne : w ≠ [] := by
    intro h
    rw [h] at hw
    simp at hw
    omega
  have hsplit := List.dropLast_append_getLast hne
  have hlast_mem : w.getLast hne ∈ w := List.getLast_mem hne
  have hlen : w.dropLast.length = N - 1 := by
    rw [List.length_dropLast, hw]
  have hsub : ∀ v ∈ w.dropLast, valDomain st p v :=
    fun v hv => hdom v (List.dropLast_subset w hv)
  have hsum : w.dropLast.sum + w.getLast hne = w.sum := by
    conv_rhs => rw [← hsplit]
    rw [List.sum_append, List.sum_cons, List.sum_nil]
    omega
  cases st with
  | additive =>
      have hlastlt : w.getLast hne < p := hdom _ hlast_mem
      refine ⟨((w.sum % p : ℕ) : ℤ), w.dropLast,
        ⟨Int.natCast_nonneg _, by exact_mod_cast Nat.mod_lt _ hp⟩,
        ⟨hlen, hsub⟩, ?_⟩
      simp only [shareVec]
      have hbal : ((((w.sum % p : ℕ) : ℤ) - ((w.dropLast.sum : ℕ) : ℤ)) % (p : ℤ)).toNat
          = w.getLast hne := by
        have hss : ((w.dropLast.sum : ℕ) : ℤ) + ((w.getLast hne : ℕ) : ℤ)
            = ((w.sum : ℕ) : ℤ) := by exact_mod_cast hsum
        have hc1 : (((w.sum % p : ℕ) : ℤ)) = ((w.sum : ℕ) : ℤ) % (p : ℤ) :=
          Int.natCast_mod w.sum p
        have hm : (((w.sum : ℕ) : ℤ) % (p : ℤ) - ((w.dropLast.sum : ℕ) : ℤ))
            ≡ (((w.sum : ℕ) : ℤ) - ((w.dropLast.sum : ℕ) : ℤ)) [ZMOD (p : ℤ)] :=
          Int.ModEq.sub (Int.emod_emod_of_dvd _ dvd_rfl) (Int.ModEq.refl _)
        have hm2 : (((w.sum : ℕ) : ℤ) % (p : ℤ) - ((w.dropLast.sum : ℕ) : ℤ)) % (p : ℤ)
            = (((w.sum : ℕ) : ℤ) - ((w.dropLast.sum : ℕ) : ℤ)) % (p : ℤ) := hm
        have hlast2 : ((w.sum : ℕ) : ℤ) - ((w.dropLast.sum : ℕ) : ℤ)
            = ((w.getLast hne : ℕ) : ℤ) := by omega
        rw [hc1, hm2, hlast2,
          Int.emod_eq_of_lt (Int.natCast_nonneg _) (by exact_mod_cast hlastlt),
          Int.toNat_natCast]
      rw [hbal]
      exact hsplit
  | xor =>
      have hlast1 : w.getLast hne ≤ 1 := hdom _ hlast_mem
      have hm2 : w.dropLast.sum % 2 ≤ 1 := by omega
      have hb : w.getLast hne ^^^ (w.dropLast.sum % 2) ≤ 1 := by
        rw [xor_of_bits _ _ hlast1 hm2]
        omega
      refine ⟨(((w.getLast hne ^^^ (w.dropLast.sum % 2)) : ℕ) : ℤ), w.dropLast,
        ?_, ⟨hlen, hsub⟩, ?_⟩
      · rcases Nat.le_one_iff_eq_zero_or_eq_one.mp hb with h | h <;> rw [h]
        · exact Or.inl rfl
        · exact Or.inr rfl
      · simp only [shareVec, Int.toNat_natCast]
        rw [Nat.xor_assoc, Nat.xor_self, Nat.xor_zero]
        exact hsplit

/-- Claim C6: information-theoretic hiding of `share_secret`'s share
list.  For both schemes, any two in-domain secrets `s1`, `s2` and any
dropped share index `i < N`: (1) there is a pair of mutually inverse maps
on the valid randomness space under which sharing `s2` shows exactly the
same `N-1` remaining shares as sharing `s1` — so, the draws being uniform,
the distribution of any `N-1` shares is identical for every secret; and
(2) every full vector of in-domain share values arises from some
in-domain secret, so every value of the missing share is consistent with
some secret. -/
theorem share_hiding (st : ShareType) (p N : ℕ) (s1 s2 : ℤ) (i : ℕ)
    (hp : 0 < p) (hN : 1 ≤ N) (hi : i < N)
    (h1 : secretInDomain st p s1) (h2 : secretInDomain st p s2) :
    (∃ φ ψ : List ℕ → List ℕ,
      ∀ r, validRands st p N r →
        validRands st p N (φ r) ∧ ψ (φ r) = r ∧ φ (ψ r) = r ∧
        (shareVec st p s2 (φ r)).eraseIdx i
          = (shareVec st p s1 r).eraseIdx i) ∧
    (∀ w : List ℕ, w.length = N → (∀ v ∈ w, valDomain st p v) →
      ∃ s r, secretInDomain st p s ∧ validRands st p N r ∧
        shareVec st p s r = w) := by
  constructor
  · refine ⟨hideMap st p s1 s2 i, hideMap st p s2 s1 i,
      fun r hr => ⟨?_, ?_, ?_, ?_⟩⟩
    · exact hideMap_valid st p N s1 s2 i r hp h1 h2 hr
    · exact hideMap_inverse st p s1 s2 i r hp h1 h2 hr.2
    · exact hideMap_inverse st p s2 s1 i r hp h2 h1 hr.2
    · exact hideMap_erase st p N s1 s2 i r hp h1 h2 hi hr
  · intro w hw hdom
    exact shareVec_surjective st p N w hp hN hw hdom

/-- Witness for claim C6 at a concrete additive instance. -/
theorem share_hiding_witness :
    secretInDomain .additive 67 5 ∧ secretInDomain .additive 67 9 ∧
      ((∃ φ ψ : List ℕ → List ℕ,
        ∀ r, validRands .additive 67 3 r →
          validRands .additive 67 3 (φ r) ∧ ψ (φ r) = r ∧ φ (ψ r) = r ∧
          (shareVec .additive 67 9 (φ r)).eraseIdx 0
            = (shareVec .additive 67 5 r).eraseIdx 0) ∧
      (∀ w : List ℕ, w.length = 3 → (∀ v ∈ w, valDomain .additive 67 v) →
        ∃ s r, secretInDomain .additive 67 s ∧ validRands .additive 67 3 r ∧
          shareVec .additive 67 s r = w)) :=
  ⟨by decide, by decide,
    share_hiding .additive 67 3 5 9 0 (by decide) (by decide) (by decide)
      (by decide) (by decide)⟩

/-- Claim C8 (code evaluated at the failing input): the coordinator's
aggregation of received per-party vectors performs no domain validation —
a received value 100, outside [0, 67), is folded straight into the mod-67
aggregation, yielding 33, instead of failing with MalformedMessage before
reconstruction.  No validation or failure path exists in
coordinator.py lines 90-102 or 119-129. -/
theorem collect_vec_accepts_out_of_range :
    ¬ valDomain .additive 67 100 ∧
      collect_vec .additive 67 1 [[100]] = [33] := by decide

end MPC
